import Mathlib

/-!
Verification of the rustlebrot renderer (src/rustlebrot/src/main.rs).

The Rust program works in 64-bit floating point.  This development embeds
the arithmetic shallowly over the exact rationals `ℚ`: every f64 value the
program manipulates is a rational number, and all the claimed properties
are value-level algebraic facts, so the rational embedding keeps every
operation of the source exactly (sums, products, divisions, comparisons)
while staying computable.  Rounding behaviour of f64 itself is outside the
embedding; where a claim is about exact real/rational algebra we prove it
over `ℚ`.
-/

/-- Squared modulus `x*x + y*y`, the quantity the source compares to `4.0`
in the bailout test of `mandelbrot`. -/
def normSq (z : ℚ × ℚ) : ℚ := z.1 * z.1 + z.2 * z.2

/-- One Mandelbrot step `z ← z² + c` exactly as the source expands it:
`(z.0*z.0 - z.1*z.1 + c.0, 2.0*z.0*z.1 + c.1)`. -/
def mandelStep (c z : ℚ × ℚ) : ℚ × ℚ :=
  (z.1 * z.1 - z.2 * z.2 + c.1, 2 * z.1 * z.2 + c.2)

/-- The orbit of `0` under `z ← z² + c`:  `mandelbrotIter c n` is the value
of `z` after `n` loop iterations of the mandelbrot function of the source
(before any bailout is taken into account). -/
def mandelbrotIter (c : ℚ × ℚ) : ℕ → ℚ × ℚ
  | 0 => (0, 0)
  | n + 1 => mandelStep c (mandelbrotIter c n)

/-- The loop body of `fn mandelbrot`: starting at loop index `i` with
current value `z` and `rem` remaining iterations (`i + rem = max_iter`),
compute `(x, y) = z² + c`, bail out returning `some i` when
`x*x + y*y > 4`, otherwise continue with `z = (x, y)`.  Returns `none`
when the loop runs out of iterations without bailing out. -/
def mandelbrotGo (c : ℚ × ℚ) : ℚ × ℚ → ℕ → ℕ → Option ℕ
  | _, _, 0 => none
  | z, i, rem + 1 =>
    let w := mandelStep c z
    if normSq w > 4 then some i
    else mandelbrotGo c w (i + 1) rem

/-- The source function `fn mandelbrot(c: (f64, f64), max_iter: u32) -> f64`:
run the loop from `z = (0.0, 0.0)`, return the bailout index `i as f64` if
the bailout test fires, and `max_iter as f64` otherwise. -/
def mandelbrot (c : ℚ × ℚ) (max_iter : ℕ) : ℚ :=
  match mandelbrotGo c (0, 0) 0 max_iter with
  | some i => (i : ℚ)
  | none => (max_iter : ℚ)

/-- The bailout test first fires at loop index `k`: the orbit value computed
at loop index `k` (which is `mandelbrotIter c (k+1)`) has squared modulus
above `4`, and no earlier loop index did. -/
def firstBail (c : ℚ × ℚ) (k : ℕ) : Prop :=
  normSq (mandelbrotIter c (k + 1)) > 4 ∧
    ∀ j < k, normSq (mandelbrotIter c (j + 1)) ≤ 4

instance (c : ℚ × ℚ) (k : ℕ) : Decidable (firstBail c k) := by
  unfold firstBail; infer_instance

/-- Modelled from the spec: the claimed continuous (smoothed) escape value
`i − log2(log2(|z|²)) / 2` for a bailout at iteration `i` whose iterate at
the bailout has squared modulus `zsq`.  The source contains no such
computation; this definition exists only to compare the claimed return
value of the spec against the actual one of the source. -/
noncomputable def smoothedEscape (i : ℕ) (zsq : ℝ) : ℝ :=
  (i : ℝ) - Real.logb 2 (Real.logb 2 zsq) / 2

/-- The Rust cast `as i32` applied to a u32 value (the `frame as i32` in
the zoom loop of `main`): the bit pattern is reinterpreted, so values
below `2^31` are unchanged while larger ones wrap by `2^32` and become
negative.  The argument is reduced mod `2^32` first, mirroring the u32
domain of `frame`. -/
def u32AsI32 (n : ℕ) : ℤ :=
  if n % 2 ^ 32 < 2 ^ 31 then ((n % 2 ^ 32 : ℕ) : ℤ)
  else ((n % 2 ^ 32 : ℕ) : ℤ) - 2 ^ 32

/-- The per-frame viewport computed inside the loop of `main`:
`x_range_initial = (-2.0 + x_center, 2.0 + x_center)` (likewise for y),
`x_range_width = (x_range_initial.1 - x_range_initial.0) / zoom_factor.powi(frame as i32)`,
and the ranges of the frame are re-centred on the fixed centre with half
the width on each side.  The `powi` exponent is the wrapping `u32 → i32`
cast of the frame index (negative for `frame ≥ 2^31`), modelled by
`u32AsI32` with an integer power (`zpow`).  The centre coordinates and
zoom factor are the f64 values of the program, embedded as rationals. -/
def frameRanges (x_center y_center zoom_factor : ℚ) (frame : ℕ) :
    (ℚ × ℚ) × (ℚ × ℚ) :=
  let x_range_initial : ℚ × ℚ := (-2 + x_center, 2 + x_center)
  let y_range_initial : ℚ × ℚ := (-2 + y_center, 2 + y_center)
  let x_range_width : ℚ := (x_range_initial.2 - x_range_initial.1) / zoom_factor ^ u32AsI32 frame
  let y_range_width : ℚ := (y_range_initial.2 - y_range_initial.1) / zoom_factor ^ u32AsI32 frame
  ((x_center - x_range_width / 2, x_center + x_range_width / 2),
    (y_center - y_range_width / 2, y_center + y_range_width / 2))

/-- The pixel-to-point mapping inlined in `render_mandelbrot`:
`scalex = (x_range.1 - x_range.0) / width as f64`,
`cx = x as f64 * scalex + x_range.0` (and likewise for y). -/
def pixel_to_point (x y width height : ℕ) (x_range y_range : ℚ × ℚ) : ℚ × ℚ :=
  let scalex : ℚ := (x_range.2 - x_range.1) / (width : ℚ)
  let scaley : ℚ := (y_range.2 - y_range.1) / (height : ℚ)
  ((x : ℚ) * scalex + x_range.1, (y : ℚ) * scaley + y_range.1)

/-- The Rust remainder operator on f64 (as used in `color_gradient`):
`a - b * trunc(a / b)`, truncating toward zero, embedded over ℚ. -/
def rustFmod (a b : ℚ) : ℚ :=
  a - b * (if 0 ≤ a / b then ((⌊a / b⌋ : ℤ) : ℚ) else ((⌈a / b⌉ : ℤ) : ℚ))

/-- The source function `fn color_gradient(iters_to_escape: f64) -> (u8, u8, u8)`:
compute the phase `t = (4.0 * iters_to_escape) % 1.0` and sample the
sinebow gradient at `t`.  The gradient itself (`colorgrad::sinebow()`)
lives in an external crate, not in this repository, so its sampling
function enters the embedding as an explicit argument `g`; the source
fixes `g` to the sinebow colormap. -/
def color_gradient (g : ℚ → ℕ × ℕ × ℕ) (iters_to_escape : ℚ) : ℕ × ℕ × ℕ :=
  g (rustFmod (4 * iters_to_escape) 1)

/-- The library function `image::imageops::invert` on an 8-bit RGB buffer:
every channel byte `b` is replaced by `255 - b`.  The flat row-major byte
buffer is modelled as a list of naturals below `256`. -/
def invertBuf (buf : List ℕ) : List ℕ := buf.map (fun b => 255 - b)

/-- The parsed CLI configuration of `main`: `<max_iter> <zoom_start>
<zoom_end> <zoom_factor>`. -/
structure Config where
  max_iter : ℕ
  zoom_start : ℕ
  zoom_end : ℕ
  zoom_factor : ℚ

/-- Outcome of the argument-handling prefix of `main`: either the process
exits (message on stderr, given exit status) before any rendering, or it
proceeds to the render loop with a parsed configuration. -/
inductive CliOutcome where
  | exitWith (stderr_msg : String) (code : ℕ)
  | run (cfg : Config)

/-- The argument-handling prefix of `fn main`: reject an argument vector
whose length is not 5 with the usage message and status 1, then parse
`max_iter`, `zoom_start`, `zoom_end` as u32 and `zoom_factor` as f64 in
order, exiting with status 1 and the corresponding message at the first
parse failure.  The standard-library parsers (`str::parse::<u32>`,
`str::parse::<f64>`) are external to the repository and enter the
embedding as explicit oracle arguments. -/
def parseCli (pU32 : String → Option ℕ) (pF64 : String → Option ℚ)
    (args : List String) : CliOutcome :=
  if args.length ≠ 5 then
    .exitWith "Usage: mandelbrot <max_iter> <zoom_start> <zoom_end> <zoom_factor>" 1
  else
    match pU32 (args.getD 1 "") with
    | none => .exitWith "Error: max_iter should be an integer" 1
    | some mi =>
      match pU32 (args.getD 2 "") with
      | none => .exitWith "Error: zoom_start should be an integer" 1
      | some zs =>
        match pU32 (args.getD 3 "") with
        | none => .exitWith "Error: zoom_end should be an integer" 1
        | some ze =>
          match pF64 (args.getD 4 "") with
          | none => .exitWith "Error: zoom_factor should be a float" 1
          | some zf => .run ⟨mi, zs, ze, zf⟩

lemma mandelbrotGo_succ (c z : ℚ × ℚ) (i rem : ℕ) :
    mandelbrotGo c z i (rem + 1) =
      if normSq (mandelStep c z) > 4 then some i
      else mandelbrotGo c (mandelStep c z) (i + 1) rem := rfl

/-- If no loop index in `[i, i+rem)` triggers the bailout, the loop runs out. -/
lemma mandelbrotGo_eq_none (c : ℚ × ℚ) (rem : ℕ) :
    ∀ i : ℕ, (∀ j, i ≤ j → j < i + rem → normSq (mandelbrotIter c (j + 1)) ≤ 4) →
      mandelbrotGo c (mandelbrotIter c i) i rem = none := by
  induction rem with
  | zero => intro i _; rfl
  | succ rem ih =>
    intro i h
    rw [mandelbrotGo_succ]
    have hi : normSq (mandelbrotIter c (i + 1)) ≤ 4 :=
      h i le_rfl (by omega)
    rw [if_neg (by simpa [mandelbrotIter] using not_lt.mpr hi)]
    have : mandelStep c (mandelbrotIter c i) = mandelbrotIter c (i + 1) := rfl
    rw [this]
    exact ih (i + 1) (fun j h1 h2 => h j (by omega) (by omega))

/-- If the bailout first fires at loop index `k ∈ [i, i+rem)` (no index in
`[i, k)` fires), the loop returns `some k`. -/
lemma mandelbrotGo_eq_some (c : ℚ × ℚ) (rem : ℕ) :
    ∀ i k : ℕ, i ≤ k → k < i + rem →
      normSq (mandelbrotIter c (k + 1)) > 4 →
      (∀ j, i ≤ j → j < k → normSq (mandelbrotIter c (j + 1)) ≤ 4) →
      mandelbrotGo c (mandelbrotIter c i) i rem = some k := by
  induction rem with
  | zero => intro i k h1 h2; omega
  | succ rem ih =>
    intro i k h1 h2 hk hbefore
    rw [mandelbrotGo_succ]
    rcases Nat.eq_or_lt_of_le h1 with heq | hlt
    · subst heq
      rw [if_pos (by simpa [mandelbrotIter] using hk)]
    · have hi : normSq (mandelbrotIter c (i + 1)) ≤ 4 :=
        hbefore i le_rfl hlt
      rw [if_neg (by simpa [mandelbrotIter] using not_lt.mpr hi)]
      have hstep : mandelStep c (mandelbrotIter c i) = mandelbrotIter c (i + 1) := rfl
      rw [hstep]
      exact ih (i + 1) k (by omega) (by omega) hk
        (fun j hj1 hj2 => hbefore j (by omega) hj2)

/-- If no loop index below `m` triggers the bailout, `mandelbrot` returns `m`. -/
lemma mandelbrot_eq_cap (c : ℚ × ℚ) (m : ℕ)
    (h : ∀ j < m, normSq (mandelbrotIter c (j + 1)) ≤ 4) :
    mandelbrot c m = (m : ℚ) := by
  unfold mandelbrot
  rw [show ((0 : ℚ), (0 : ℚ)) = mandelbrotIter c 0 from rfl,
    mandelbrotGo_eq_none c m 0 (fun j _ h2 => h j (by omega))]

/-- If the bailout first fires at loop index `k < m`, `mandelbrot` returns `k`. -/
lemma mandelbrot_eq_bail (c : ℚ × ℚ) (m k : ℕ) (hk : k < m)
    (h : firstBail c k) :
    mandelbrot c m = (k : ℚ) := by
  unfold mandelbrot
  rw [show ((0 : ℚ), (0 : ℚ)) = mandelbrotIter c 0 from rfl,
    mandelbrotGo_eq_some c m 0 k (Nat.zero_le k) (by omega) h.1
      (fun j _ hj => h.2 j hj)]

/-- The loop can only bail out at a loop index inside `[i, i + rem)`. -/
lemma mandelbrotGo_some_bound (c : ℚ × ℚ) :
    ∀ rem : ℕ, ∀ z : ℚ × ℚ, ∀ i k : ℕ,
      mandelbrotGo c z i rem = some k → i ≤ k ∧ k < i + rem := by
  intro rem
  induction rem with
  | zero => intro z i k h; exact absurd h (by simp [mandelbrotGo])
  | succ rem ih =>
    intro z i k h
    rw [mandelbrotGo_succ] at h
    by_cases hb : normSq (mandelStep c z) > 4
    · rw [if_pos hb] at h
      obtain rfl : i = k := by simpa using h
      omega
    · rw [if_neg hb] at h
      have := ih (mandelStep c z) (i + 1) k h
      omega

/-- The first iterate of the orbit is `c` itself. -/
lemma mandelbrotIter_one (c : ℚ × ℚ) : mandelbrotIter c 1 = (c.1, c.2) := by
  simp [mandelbrotIter, mandelStep]

/-- The orbit of the origin stays at the origin. -/
lemma mandelbrotIter_origin (n : ℕ) : mandelbrotIter (0, 0) n = (0, 0) := by
  induction n with
  | zero => rfl
  | succ n ih => rw [mandelbrotIter, ih]; norm_num [mandelStep]

/-- Below `2^31` the wrapping `u32 → i32` cast is value-preserving. -/
lemma u32AsI32_of_lt (n : ℕ) (h : n < 2 ^ 31) : u32AsI32 n = (n : ℤ) := by
  unfold u32AsI32
  have h32 : n % 2 ^ 32 = n := Nat.mod_eq_of_lt (lt_trans h (by norm_num))
  rw [h32, if_pos h]

/-- At `2^31` the wrapping `u32 → i32` cast turns negative. -/
lemma u32AsI32_wrap : u32AsI32 (2 ^ 31) = -(2 ^ 31) := by
  unfold u32AsI32
  norm_num

/-- For a nonnegative argument, the Rust remainder by `1` is the fractional
part. -/
lemma rustFmod_one_of_nonneg (a : ℚ) (ha : 0 ≤ a) :
    rustFmod a 1 = a - ((⌊a⌋ : ℤ) : ℚ) := by
  unfold rustFmod
  rw [div_one, if_pos ha, one_mul]

/-- C2: for `c = (0,0)` and every iteration cap `max_iter`, `mandelbrot`
returns exactly `max_iter` (the no-bailout branch is taken and the cap
itself is returned). -/
theorem mandelbrot_origin_returns_cap (m : ℕ) : mandelbrot (0, 0) m = (m : ℚ) :=
  mandelbrot_eq_cap _ m (fun j _ => by rw [mandelbrotIter_origin]; norm_num [normSq])

/-- C1 (amended): when the bailout test `|z|² > 4` first triggers at loop
index `k < max_iter`, `mandelbrot` returns the integer iteration index
`k` converted to a float — with no smoothing term. -/
theorem mandelbrot_returns_integer_index (c : ℚ × ℚ) (m k : ℕ)
    (hk : k < m) (h : firstBail c k) : mandelbrot c m = (k : ℚ) :=
  mandelbrot_eq_bail c m k hk h

theorem mandelbrot_returns_integer_index_witness :
    mandelbrot (3, 0) 1 = ((0 : ℕ) : ℚ) :=
  mandelbrot_returns_integer_index (3, 0) 1 0 (by norm_num)
    ⟨by norm_num [mandelbrotIter, mandelStep, normSq], by omega⟩

/-- C1 counterexample: at `c = (3,0)` with `max_iter = 1` the bailout first
triggers at iteration `0` with `|z|² = 9`, and `mandelbrot` returns the
plain index `0`, which differs from the smoothed value
`0 − log2(log2 9)/2` the claim requires. -/
theorem mandelbrot_not_smoothed :
    mandelbrot (3, 0) 1 = 0 ∧ firstBail (3, 0) 0 ∧
      normSq (mandelbrotIter (3, 0) (0 + 1)) = 9 ∧
      ((mandelbrot (3, 0) 1 : ℚ) : ℝ) ≠ smoothedEscape 0 9 := by
  have h0 : mandelbrot (3, 0) 1 = 0 := by
    norm_num [mandelbrot, mandelbrotGo, mandelStep, normSq]
  refine ⟨h0, ⟨by norm_num [mandelbrotIter, mandelStep, normSq], by omega⟩,
    by norm_num [mandelbrotIter, mandelStep, normSq], ?_⟩
  rw [h0]
  have h9 : (1 : ℝ) < Real.logb 2 9 := by
    have h2 : Real.logb 2 2 = 1 := Real.logb_self_eq_one (by norm_num)
    calc (1 : ℝ) = Real.logb 2 2 := h2.symm
      _ < Real.logb 2 9 := Real.logb_lt_logb (by norm_num) (by norm_num) (by norm_num)
  have hpos : (0 : ℝ) < Real.logb 2 (Real.logb 2 9) :=
    Real.logb_pos (by norm_num) h9
  have : smoothedEscape 0 9 < 0 := by
    unfold smoothedEscape
    push_cast
    linarith
  push_cast
  linarith

/-- C3 counterexample: `c = (2,0)` has `|c| = 2`, so `|c| ≥ 2`, yet with
`max_iter = 1` the first iterate has `|z|² = 4`, the strict test `4 > 4`
fails, no bailout ever fires and `mandelbrot` returns `1`, which is not
`< 1`. -/
theorem bailout_at_radius_two_counterexample :
    (2 : ℚ) * 2 + 0 * 0 ≥ 2 ^ 2 ∧ mandelbrot (2, 0) 1 = 1 ∧
      ¬ mandelbrot (2, 0) 1 < 1 := by
  refine ⟨by norm_num, ?_, ?_⟩ <;>
    norm_num [mandelbrot, mandelbrotGo, mandelStep, normSq]

/-- C3 (amended): for every `c` strictly outside the bailout radius
(`|c|² > 4`, i.e. `|c| > 2`) and every positive cap, the bailout fires
immediately at iteration `0` and `mandelbrot` returns `0`, a (finite)
value strictly less than `1`. -/
theorem mandelbrot_immediate_bailout (c : ℚ × ℚ) (m : ℕ)
    (hc : c.1 * c.1 + c.2 * c.2 > 4) (hm : 1 ≤ m) :
    mandelbrot c m = 0 ∧ mandelbrot c m < 1 := by
  have hfb : firstBail c 0 := by
    refine ⟨?_, by omega⟩
    rw [mandelbrotIter_one]
    simpa [normSq] using hc
  have h0 : mandelbrot c m = ((0 : ℕ) : ℚ) := mandelbrot_eq_bail c m 0 hm hfb
  rw [h0]; norm_num

theorem mandelbrot_immediate_bailout_witness :
    mandelbrot (3, 0) 1 = 0 ∧ mandelbrot (3, 0) 1 < 1 :=
  mandelbrot_immediate_bailout (3, 0) 1 (by norm_num) (by norm_num)

/-- C5: `mandelbrot` is monotone in the iteration cap, and for a point
whose bailout first fires strictly below the smaller cap, both caps give
the identical value. -/
theorem mandelbrot_monotone_in_cap (c : ℚ × ℚ) (m1 m2 : ℕ) (h : m1 ≤ m2) :
    mandelbrot c m1 ≤ mandelbrot c m2 ∧
      ∀ k, k < m1 → firstBail c k → mandelbrot c m1 = mandelbrot c m2 := by
  constructor
  · by_cases hex : ∃ j, j < m1 ∧ 4 < normSq (mandelbrotIter c (j + 1))
    · obtain ⟨j0, hj0, hPj0⟩ := hex
      have hexP : ∃ j, 4 < normSq (mandelbrotIter c (j + 1)) := ⟨j0, hPj0⟩
      have hkspec : 4 < normSq (mandelbrotIter c (Nat.find hexP + 1)) :=
        Nat.find_spec hexP
      have hkmin : ∀ j < Nat.find hexP, normSq (mandelbrotIter c (j + 1)) ≤ 4 :=
        fun j hj => not_lt.mp (Nat.find_min hexP hj)
      have hklt : Nat.find hexP < m1 := lt_of_le_of_lt (Nat.find_min' hexP hPj0) hj0
      rw [mandelbrot_eq_bail c m1 _ hklt ⟨hkspec, hkmin⟩,
        mandelbrot_eq_bail c m2 _ (lt_of_lt_of_le hklt h) ⟨hkspec, hkmin⟩]
    · push_neg at hex
      rw [mandelbrot_eq_cap c m1 hex]
      by_cases hex2 : ∃ j, j < m2 ∧ 4 < normSq (mandelbrotIter c (j + 1))
      · obtain ⟨j0, hj0, hPj0⟩ := hex2
        have hexP : ∃ j, 4 < normSq (mandelbrotIter c (j + 1)) := ⟨j0, hPj0⟩
        have hkspec : 4 < normSq (mandelbrotIter c (Nat.find hexP + 1)) :=
          Nat.find_spec hexP
        have hkmin : ∀ j < Nat.find hexP, normSq (mandelbrotIter c (j + 1)) ≤ 4 :=
          fun j hj => not_lt.mp (Nat.find_min hexP hj)
        have hklt : Nat.find hexP < m2 := lt_of_le_of_lt (Nat.find_min' hexP hPj0) hj0
        have hge : m1 ≤ Nat.find hexP := by
          by_contra hcon
          push_neg at hcon
          exact absurd hkspec (not_lt.mpr (hex _ hcon))
        rw [mandelbrot_eq_bail c m2 _ hklt ⟨hkspec, hkmin⟩]
        exact_mod_cast hge
      · push_neg at hex2
        rw [mandelbrot_eq_cap c m2 hex2]
        exact_mod_cast h
  · intro k hk hfb
    rw [mandelbrot_eq_bail c m1 k hk hfb,
      mandelbrot_eq_bail c m2 k (lt_of_lt_of_le hk h) hfb]

theorem mandelbrot_monotone_in_cap_witness :
    mandelbrot (3, 0) 1 ≤ mandelbrot (3, 0) 2 ∧
      ∀ k, k < 1 → firstBail (3, 0) k → mandelbrot (3, 0) 1 = mandelbrot (3, 0) 2 :=
  mandelbrot_monotone_in_cap (3, 0) 1 2 (by norm_num)

/-- C10: `mandelbrot` always returns a whole number in `[0, max_iter]`;
hence for `max_iter ≥ 1` the ratio `mandelbrot c max_iter / max_iter`
computed in `render_mandelbrot` lies in `[0, 1]`; for `max_iter = 0` the
returned value is `0`, so the ratio computed there is the unguarded `0/0`
(a NaN in f64; the exact embedding records that numerator and denominator
are both `0`). -/
theorem mandelbrot_ratio_in_unit_interval (c : ℚ × ℚ) (m : ℕ) :
    (∃ n : ℕ, n ≤ m ∧ mandelbrot c m = (n : ℚ)) ∧
      (1 ≤ m → 0 ≤ mandelbrot c m / (m : ℚ) ∧ mandelbrot c m / (m : ℚ) ≤ 1) ∧
      mandelbrot c 0 = 0 := by
  have hex : ∃ n : ℕ, n ≤ m ∧ mandelbrot c m = (n : ℚ) := by
    unfold mandelbrot
    cases h : mandelbrotGo c (0, 0) 0 m with
    | none => exact ⟨m, le_rfl, rfl⟩
    | some k =>
      have := mandelbrotGo_some_bound c m (0, 0) 0 k h
      exact ⟨k, by omega, rfl⟩
  refine ⟨hex, ?_, ?_⟩
  · intro hm
    obtain ⟨n, hn, hval⟩ := hex
    have hm0 : 0 < m := hm
    have hmpos : (0 : ℚ) < (m : ℚ) := by exact_mod_cast hm0
    rw [hval]
    refine ⟨by positivity, ?_⟩
    rw [div_le_one hmpos]
    exact_mod_cast hn
  · simp [mandelbrot, mandelbrotGo]

theorem mandelbrot_ratio_in_unit_interval_witness :
    0 ≤ mandelbrot (3, 0) 2 / ((2 : ℕ) : ℚ) ∧
      mandelbrot (3, 0) 2 / ((2 : ℕ) : ℚ) ≤ 1 :=
  (mandelbrot_ratio_in_unit_interval (3, 0) 2).2.1 (by norm_num)

/-- C4 counterexample: the claim fails at frame index `2^31`.  There the
`u32 → i32` cast inside `zoom_factor.powi(frame as i32)` wraps to
`-(2^31)` (reachable, since `zoom_start` parses as an arbitrary u32), so
with zoom factor `2` the viewport width is `4 · 2^(2^31)` — the viewport
grows — instead of the claimed `4 / 2^(2^31)`. -/
theorem frame_viewport_wrap_counterexample :
    (frameRanges 0 0 2 (2 ^ 31)).1.2 - (frameRanges 0 0 2 (2 ^ 31)).1.1
      ≠ ((2 + 0) - (-2 + 0)) / (2 : ℚ) ^ (2 ^ 31 : ℕ) := by
  have hz : (2 : ℚ) ^ u32AsI32 (2 ^ 31) = ((2 : ℚ) ^ (2 ^ 31 : ℕ))⁻¹ := by
    rw [u32AsI32_wrap, show (-(2 ^ 31) : ℤ) = -((2 ^ 31 : ℕ) : ℤ) by norm_num,
      zpow_neg, zpow_natCast]
  have hX1 : (1 : ℚ) < 2 ^ (2 ^ 31 : ℕ) := one_lt_pow₀ (by norm_num) (by norm_num)
  simp only [frameRanges, hz]
  generalize (2 : ℚ) ^ (2 ^ 31 : ℕ) = X at hX1 ⊢
  apply ne_of_gt
  have h4 : ((2 + 0) - (-2 + 0) : ℚ) = 4 := by norm_num
  rw [h4]
  simp only [div_inv_eq_mul]
  have h2 : (4 : ℚ) / X < 4 := div_lt_self (by norm_num) hX1
  linarith

/-- C4 (amended): under the fixed-center exponential zoom policy of
`main`, for every frame index `i` below `2^31` (where the `u32 → i32`
cast fed to `powi` is value-preserving) the viewport width at frame `i`
equals the initial width divided by `zoom_factor ^ i`, and the viewport
is centred on the fixed zoom point; `frameRanges` computes each frame
directly from its index, with no dependence on prior frames.  At indices
`≥ 2^31` the cast wraps to a negative exponent and the width formula of
the claim fails. -/
theorem frame_viewport_exponential (xc yc zf : ℚ) (i : ℕ) (hi : i < 2 ^ 31) :
    (frameRanges xc yc zf i).1.2 - (frameRanges xc yc zf i).1.1
        = ((2 + xc) - (-2 + xc)) / zf ^ i ∧
      (frameRanges xc yc zf i).2.2 - (frameRanges xc yc zf i).2.1
        = ((2 + yc) - (-2 + yc)) / zf ^ i ∧
      ((frameRanges xc yc zf i).1.1 + (frameRanges xc yc zf i).1.2) / 2 = xc ∧
      ((frameRanges xc yc zf i).2.1 + (frameRanges xc yc zf i).2.2) / 2 = yc := by
  simp only [frameRanges, u32AsI32_of_lt i hi, zpow_natCast]
  refine ⟨by ring, by ring, by ring, by ring⟩

theorem frame_viewport_exponential_witness :
    (frameRanges 0 0 (3 / 2) 2).1.2 - (frameRanges 0 0 (3 / 2) 2).1.1
        = ((2 + 0) - (-2 + 0)) / (3 / 2 : ℚ) ^ 2 ∧
      (frameRanges 0 0 (3 / 2) 2).2.2 - (frameRanges 0 0 (3 / 2) 2).2.1
        = ((2 + 0) - (-2 + 0)) / (3 / 2 : ℚ) ^ 2 ∧
      ((frameRanges 0 0 (3 / 2) 2).1.1 + (frameRanges 0 0 (3 / 2) 2).1.2) / 2 = 0 ∧
      ((frameRanges 0 0 (3 / 2) 2).2.1 + (frameRanges 0 0 (3 / 2) 2).2.2) / 2 = 0 :=
  frame_viewport_exponential 0 0 (3 / 2) 2 (by norm_num)

/-- C6: for positive dimensions and a proper viewport, the pixel `(w, h)`
maps exactly to the far corner `(x_max, y_max)`: the far edge is
boundary-inclusive with no error. -/
theorem pixel_to_point_far_edge (w h : ℕ) (xr yr : ℚ × ℚ)
    (hw : 0 < w) (hh : 0 < h) (hx : xr.1 < xr.2) (hy : yr.1 < yr.2) :
    pixel_to_point w h w h xr yr = (xr.2, yr.2) := by
  have hw0 : (w : ℚ) ≠ 0 := Nat.cast_ne_zero.mpr hw.ne'
  have hh0 : (h : ℚ) ≠ 0 := Nat.cast_ne_zero.mpr hh.ne'
  simp only [pixel_to_point, Prod.mk.injEq]
  constructor <;> (field_simp)

theorem pixel_to_point_far_edge_witness :
    pixel_to_point 2 3 2 3 (0, 1) (-1, 1) = ((0, 1).2, (-1, 1).2) :=
  pixel_to_point_far_edge 2 3 (0, 1) (-1, 1)
    (by norm_num) (by norm_num) (by norm_num) (by norm_num)

/-- C7: the cyclic (sinebow) colour mapping has period `1/4` in ratio
space: for every gradient sampler `g` and every normalized ratio
(`0 ≤ ratio`, the normalization obligation on callers),
`color_gradient` gives the same colour at `ratio` and `ratio + 0.25` —
only the periodic part of the input affects the phase. -/
theorem color_gradient_periodic (g : ℚ → ℕ × ℕ × ℕ) (ratio : ℚ)
    (h : 0 ≤ ratio) :
    color_gradient g ratio = color_gradient g (ratio + 1 / 4) := by
  unfold color_gradient
  congr 1
  have h4 : (0 : ℚ) ≤ 4 * ratio := by positivity
  have h41 : (0 : ℚ) ≤ 4 * ratio + 1 := by positivity
  have hrw : 4 * (ratio + 1 / 4) = 4 * ratio + 1 := by ring
  rw [hrw, rustFmod_one_of_nonneg _ h4, rustFmod_one_of_nonneg _ h41,
    Int.floor_add_one]
  push_cast
  ring

theorem color_gradient_periodic_witness :
    color_gradient (fun t => (t.num.natAbs, 0, 0)) (1 / 2)
      = color_gradient (fun t => (t.num.natAbs, 0, 0)) (1 / 2 + 1 / 4) :=
  color_gradient_periodic (fun t => (t.num.natAbs, 0, 0)) (1 / 2) (by norm_num)

/-- C8: photometric inversion is self-inverse: inverting a byte buffer
twice returns a buffer byte-for-byte equal to the original. -/
theorem invertBuf_involutive (buf : List ℕ) (h : ∀ b ∈ buf, b ≤ 255) :
    invertBuf (invertBuf buf) = buf := by
  induction buf with
  | nil => rfl
  | cons b bs ih =>
    have hb : b ≤ 255 := h b (List.mem_cons_self b bs)
    have hbs : invertBuf (invertBuf bs) = bs :=
      ih (fun x hx => h x (List.mem_cons_of_mem b hx))
    simp only [invertBuf, List.map_cons] at hbs ⊢
    rw [hbs]
    congr 1
    omega

theorem invertBuf_involutive_witness :
    invertBuf (invertBuf [0, 7, 128, 255]) = [0, 7, 128, 255] :=
  invertBuf_involutive [0, 7, 128, 255] (by decide)

/-- C9: any argument vector with the wrong argument count or a malformed
numeric argument makes `main` print a message to stderr and exit with
status 1 before any rendering: the outcome is an `exitWith _ 1`, never a
`run` configuration (so no frame is rendered or saved and no subprocess
is invoked). -/
theorem parseCli_rejects_bad_args (pU32 : String → Option ℕ)
    (pF64 : String → Option ℚ) (args : List String)
    (h : args.length ≠ 5 ∨ pU32 (args.getD 1 "") = none ∨
      pU32 (args.getD 2 "") = none ∨ pU32 (args.getD 3 "") = none ∨
      pF64 (args.getD 4 "") = none) :
    ∃ msg, parseCli pU32 pF64 args = CliOutcome.exitWith msg 1 ∧
      ∀ cfg, parseCli pU32 pF64 args ≠ CliOutcome.run cfg := by
  have hmain : ∃ msg, parseCli pU32 pF64 args = CliOutcome.exitWith msg 1 := by
    unfold parseCli
    by_cases hlen : args.length ≠ 5
    · exact ⟨_, by rw [if_pos hlen]⟩
    · rw [if_neg hlen]
      rcases h with h | h | h | h | h
      · exact absurd h hlen
      · exact ⟨_, by rw [h]⟩
      · cases h1 : pU32 (args.getD 1 "") with
        | none => exact ⟨_, rfl⟩
        | some mi => exact ⟨_, by rw [h]⟩
      · cases h1 : pU32 (args.getD 1 "") with
        | none => exact ⟨_, rfl⟩
        | some mi =>
          cases h2 : pU32 (args.getD 2 "") with
          | none => exact ⟨_, rfl⟩
          | some zs => exact ⟨_, by rw [h]⟩
      · cases h1 : pU32 (args.getD 1 "") with
        | none => exact ⟨_, rfl⟩
        | some mi =>
          cases h2 : pU32 (args.getD 2 "") with
          | none => exact ⟨_, rfl⟩
          | some zs =>
            cases h3 : pU32 (args.getD 3 "") with
            | none => exact ⟨_, rfl⟩
            | some ze => exact ⟨_, by rw [h]⟩
  obtain ⟨msg, hres⟩ := hmain
  refine ⟨msg, hres, fun cfg => ?_⟩
  rw [hres]
  intro hcon
  exact CliOutcome.noConfusion hcon

theorem parseCli_rejects_bad_args_witness :
    ∃ msg, parseCli (fun _ => some 0) (fun _ => some 1) ["mandelbrot"]
        = CliOutcome.exitWith msg 1 ∧
      ∀ cfg, parseCli (fun _ => some 0) (fun _ => some 1) ["mandelbrot"]
        ≠ CliOutcome.run cfg :=
  parseCli_rejects_bad_args (fun _ => some 0) (fun _ => some 1) ["mandelbrot"]
    (Or.inl (by simp))
